import Mathlib

/-!
Shallow embedding of the ivue-hide-value VS Code extension core
(src/extension.ts): the text scanners (RE_VALUE, RE_COMPUTED_ASSIGN,
RE_METHOD_SIG), the hover-based eligibility classifier (getHoverTypeAt,
isRefLike), the selection gate (anySelectionTouches), the decoration
pass (applyDecorations), and the caret nudge (adjustCaretAfterMiddot).

Conventions of the embedding:
- a document is a list of lines (`List String`); columns are character
  indices into the line (the sources are ASCII, so UTF-16 columns used
  by the editor coincide with character indices);
- `Position`/`Range`/`Selection` mirror the host editor's value types;
  the range end field is called `stop` because `end` is reserved;
- the asynchronous hover query is modelled by its outcome
  (`HoverOutcome`): it threw, returned a nullish/empty answer, or
  returned a list of hovers, each a list of content blocks.
-/

namespace IvueHideValue

/-- Character class of the JS regex token for word characters:
uppercase and lowercase ASCII letters, digits, and underscore. -/
def isWordChar (c : Char) : Bool :=
  decide (('A' ≤ c ∧ c ≤ 'Z') ∨ ('a' ≤ c ∧ c ≤ 'z') ∨
          ('0' ≤ c ∧ c ≤ '9') ∨ c = '_')

/-- Character class of the JS whitespace token (ASCII part, which is all
the source lines here can contain). -/
def isWsChar (c : Char) : Bool :=
  decide (c = ' ' ∨ c = '\t' ∨ c = '\n' ∨ c = '\r' ∨
          c = '\x0b' ∨ c = '\x0c')

/-- Identifier start class of the scanners: ASCII letter or underscore. -/
def isIdentStartChar (c : Char) : Bool :=
  decide (('A' ≤ c ∧ c ≤ 'Z') ∨ ('a' ≤ c ∧ c ≤ 'z') ∨ c = '_')

/-- A (line, character) coordinate, as in the host editor. -/
structure Position where
  line : Nat
  character : Nat
deriving DecidableEq, Repr

/-- Lexicographic order on positions, as the host editor compares them. -/
def posLeb (a b : Position) : Bool :=
  decide (a.line < b.line ∨ (a.line = b.line ∧ a.character ≤ b.character))

/-- A half-open span between two positions; the end field is named
`stop` because `end` is a reserved word. -/
structure Range where
  start : Position
  stop : Position
deriving DecidableEq, Repr

/-- Intersection of two ranges, as the host editor computes it: the
later start and the earlier stop, or nothing when the former lies
strictly after the latter (mere touching yields an empty range, which
counts as an intersection). -/
def Range.intersection (a b : Range) : Option Range :=
  let s := if posLeb a.start b.start then b.start else a.start
  let e := if posLeb a.stop b.stop then a.stop else b.stop
  if posLeb s e then some ⟨s, e⟩ else none

/-- A selection: an anchor and an active (caret) position, either order. -/
structure Selection where
  anchor : Position
  active : Position
deriving DecidableEq, Repr

/-- Earlier endpoint of a selection. -/
def Selection.startPos (s : Selection) : Position :=
  if posLeb s.anchor s.active then s.anchor else s.active

/-- Later endpoint of a selection. -/
def Selection.stopPos (s : Selection) : Position :=
  if posLeb s.anchor s.active then s.active else s.anchor

/-- The range a selection covers (selections are ranges in the host). -/
def Selection.toRange (s : Selection) : Range :=
  ⟨s.startPos, s.stopPos⟩

/-- positionsEqual from the source. -/
def positionsEqual (a b : Position) : Bool :=
  a.line == b.line && a.character == b.character

/-- anySelectionTouches from the source: some selection intersects the
range, or some selection's active position equals the range's end. -/
def anySelectionTouches (range : Range) (selections : List Selection) : Bool :=
  selections.any fun sel =>
    (Range.intersection range sel.toRange).isSome || positionsEqual sel.active range.stop

/-- Text of line `n` of the document, as a character list. Out-of-range
lines read as empty (the source only visits lines inside the document). -/
def lineAt (doc : List String) (n : Nat) : List Char :=
  (doc.getD n "").toList

/-- Match of the accessor regex RE_VALUE (literal `.value` followed by a
word boundary) at index `i` of a line. -/
def valueMatchAt (s : List Char) (i : Nat) : Bool :=
  ((s.drop i).take 6 == ".value".toList) &&
  (match s.drop (i + 6) with
   | [] => true
   | c :: _ => !isWordChar c)

/-- The global-regex exec loop over one line: successive non-overlapping
matches, each advancing past the six matched characters. `fuel` bounds
the recursion (one unit per column). -/
def reValueScanAux (s : List Char) : Nat → Nat → List Nat
  | 0, _ => []
  | fuel + 1, i =>
    if i < s.length then
      if valueMatchAt s i then i :: reValueScanAux s fuel (i + 6)
      else reValueScanAux s fuel (i + 1)
    else []

/-- All start indices of RE_VALUE matches in one line. -/
def reValueScan (s : List Char) : List Nat :=
  reValueScanAux s (s.length + 1) 0

/-- Lines covered by a list of visible ranges, in iteration order
(start line through end line of each visible range, inclusive). -/
def visibleLines (vis : List Range) : List Nat :=
  vis.flatMap fun v => List.range' v.start.line (v.stop.line + 1 - v.start.line)

/-- findValueRangesInVisible from the source: every RE_VALUE match on
every visible line, as a range of width six on that line. -/
def findValueRangesInVisible (doc : List String) (vis : List Range) : List Range :=
  (visibleLines vis).flatMap fun line =>
    (reValueScan (lineAt doc line)).map fun i =>
      ⟨⟨line, i⟩, ⟨line, i + 6⟩⟩

/-! The two anchored single-line regexes of the computed-pair scanner,
RE_COMPUTED_ASSIGN and RE_METHOD_SIG, are embedded as explicit
matchers.  Each regex piece maps to a helper; the optional groups
(visibility keyword, `override`, `async`, the trailing
`as typeof this.$name` group) become ordered two-branch alternatives —
greedy branch first, skip branch second — reproducing the regex
engine's backtracking.  Greedy repetitions (`\s*`, `\w*`) never need to
give characters back here because each is followed by a piece that
cannot match the characters the repetition consumes, so they are
committed. -/

/-- Strips a literal prefix, returning the remainder on success. -/
def stripLit : List Char → List Char → Option (List Char)
  | [], s => some s
  | _ :: _, [] => none
  | p :: ps, c :: cs => if p = c then stripLit ps cs else none

/-- Greedy whitespace repetition (the `\s*` pieces). -/
def skipWs (s : List Char) : List Char :=
  s.dropWhile isWsChar

/-- Whitespace repetition requiring at least one character (`\s+`). -/
def skipWs1? (s : List Char) : Option (List Char) :=
  match s with
  | c :: cs => if isWsChar c then some (cs.dropWhile isWsChar) else none
  | [] => none

/-- Greedy identifier capture (letter or underscore, then word
characters): the captured text and the remainder. -/
def takeIdent? : List Char → Option (List Char × List Char)
  | [] => none
  | c :: cs =>
    if isIdentStartChar c then some (c :: cs.takeWhile isWordChar, cs.dropWhile isWordChar)
    else none

/-- The visibility-keyword alternation: at most one of the three
keywords can begin the text, so the with-branch remainder is unique. -/
def visKw? (s : List Char) : Option (List Char) :=
  match stripLit "public".toList s with
  | some r => some r
  | none =>
    match stripLit "protected".toList s with
    | some r => some r
    | none => stripLit "private".toList s

/-- The `override` keyword followed by mandatory whitespace. -/
def overrideKw? (s : List Char) : Option (List Char) :=
  match stripLit "override".toList s with
  | some r => skipWs1? r
  | none => none

/-- The `async` keyword followed by mandatory whitespace. -/
def asyncKw? (s : List Char) : Option (List Char) :=
  match stripLit "async".toList s with
  | some r => skipWs1? r
  | none => none

/-- An optional regex group: the branch that consumes it (when it
matches) followed by the branch that skips it, in backtracking order. -/
def optBranch (f : List Char → Option (List Char)) (s : List Char) : List (List Char) :=
  match f s with
  | some r => [r, s]
  | none => [s]

/-- The optional trailing `as typeof this.$name` group of
RE_COMPUTED_ASSIGN; `name` is the back-reference to the bound method
name captured earlier. -/
def asTypeofBranch (name2 : List Char) (s : List Char) : Option (List Char) := do
  let r ← stripLit "as".toList s
  let r ← skipWs1? r
  let r ← stripLit "typeof".toList r
  let r ← skipWs1? r
  let r ← stripLit "this.$".toList r
  let r ← stripLit name2 r
  some (skipWs r)

/-- Tail of RE_COMPUTED_ASSIGN after the close of `bind(this)`:
optional whitespace, the optional `as typeof` group, the call's closing
parenthesis; the trailing optional semicolon and any text after it are
unconstrained because the regex is not end-anchored. -/
def afterBindClose (name2 : List Char) (s : List Char) : Bool :=
  (optBranch (asTypeofBranch name2) (skipWs s)).any fun r =>
    (stripLit [')'] r).isSome

/-- RE_COMPUTED_ASSIGN from the source, as a matcher on one line: on
success returns the two captures — the assigned property name and the
bound method name (without its dollar marker). -/
def computedAssignMatch (lineText : List Char) : Option (List Char × List Char) :=
  let s1 := skipWs lineText
  ((optBranch visKw? s1).map skipWs).findSome? fun s2 =>
    (optBranch overrideKw? s2).findSome? fun s3 => do
      let (name1, r) ← takeIdent? s3
      let r ← stripLit ['='] (skipWs r)
      let r ← stripLit "computed".toList (skipWs r)
      let r ← stripLit ['('] (skipWs r)
      let r ← stripLit "this.$".toList (skipWs r)
      let (name2, r) ← takeIdent? r
      let r ← stripLit ".bind".toList (skipWs r)
      let r ← stripLit ['('] (skipWs r)
      let r ← stripLit "this".toList (skipWs r)
      let r ← stripLit [')'] (skipWs r)
      if afterBindClose name2 r then some (name1, name2) else none

/-- RE_METHOD_SIG from the source, as a matcher on one line: on success
returns the capture, the full method name including its leading dollar
marker. -/
def methodSigMatch (lineText : List Char) : Option (List Char) :=
  let s1 := skipWs lineText
  ((optBranch visKw? s1).map skipWs).findSome? fun s2 =>
    (optBranch overrideKw? s2).findSome? fun s3 =>
      (optBranch asyncKw? s3).findSome? fun s4 => do
        let r ← stripLit ['$'] s4
        let (nm, r) ← takeIdent? r
        let _ ← stripLit ['('] (skipWs r)
        some ('$' :: nm)

/-- text.indexOf(pattern) starting from index `i`: the first index at
which the pattern occurs as a substring. -/
def indexOfSubFrom : List Char → List Char → Nat → Option Nat
  | [], pat, i => if (stripLit pat []).isSome then some i else none
  | c :: cs, pat, i =>
    if (stripLit pat (c :: cs)).isSome then some i
    else indexOfSubFrom cs pat (i + 1)

/-- Map.set on an association list: replace the existing entry for the
key in place, else append (JS Map insertion-order semantics). -/
def mapSet (m : List (List Char × Range)) (k : List Char) (v : Range) :
    List (List Char × Range) :=
  if m.any (fun e => e.1 == k) then
    m.map fun e => if e.1 == k then (k, v) else e
  else m ++ [(k, v)]

/-- Map.get on the association list. -/
def mapGet? (m : List (List Char × Range)) (k : List Char) : Option Range :=
  (m.find? (fun e => e.1 == k)).map (·.2)

/-- The methodDollarByName index of findComputedPairsInVisible: every
visible line is run through RE_METHOD_SIG, and a hit stores — under the
name without its dollar marker, later lines overwriting earlier ones —
the one-character range at the first occurrence of the full matched
name in that line (text.indexOf). -/
def methodIndex (doc : List String) (vis : List Range) : List (List Char × Range) :=
  (visibleLines vis).foldl
    (fun m line =>
      match methodSigMatch (lineAt doc line) with
      | some full =>
        let idx := (indexOfSubFrom (lineAt doc line) full 0).getD 0
        mapSet m (full.drop 1) ⟨⟨line, idx⟩, ⟨line, idx + 1⟩⟩
      | none => m)
    []

/-- A resolved assignment/method pair, as in the source. -/
structure ComputedPair where
  assignRange : Range
  dotAnchor : Range
  dollarRange : Range
deriving DecidableEq, Repr

/-- text.search of the first non-whitespace character, with the
source's fallback to column 0 when the line is all whitespace. -/
def firstNonWsCol (s : List Char) : Nat :=
  match s.findIdx? (fun c => !isWsChar c) with
  | some i => i
  | none => 0

/-- findComputedPairsInVisible from the source: for each visible line
matching RE_COMPUTED_ASSIGN whose captured bound method name has an
entry in the method index, emit a pair of the whole assignment line, a
zero-width dot anchor at its first non-whitespace column, and the
indexed dollar range.  The assigned property name capture is bound but
never compared against anything. -/
def findComputedPairsInVisible (doc : List String) (vis : List Range) : List ComputedPair :=
  (visibleLines vis).filterMap fun line =>
    match computedAssignMatch (lineAt doc line) with
    | none => none
    | some (_lhsName, rhsMethod) =>
      match mapGet? (methodIndex doc vis) rhsMethod with
      | none => none
      | some methodRange =>
        some { assignRange := ⟨⟨line, 0⟩, ⟨line, (lineAt doc line).length⟩⟩
               dotAnchor := ⟨⟨line, firstNonWsCol (lineAt doc line)⟩,
                             ⟨line, firstNonWsCol (lineAt doc line)⟩⟩
               dollarRange := methodRange }

/-! Eligibility oracle: getHoverTypeAt and isRefLike.  The asynchronous
hover command is modelled by its outcome; the classifier itself is the
pure function of that outcome that the source computes. -/

/-- One content entry of a hover: either a plain string or a markup
object carrying a string value — the source pushes the text of both. -/
inductive HoverContent where
  | plain (s : String)
  | markup (s : String)
deriving DecidableEq, Repr

/-- The text the source extracts from one content entry. -/
def HoverContent.text : HoverContent → String
  | .plain s => s
  | .markup s => s

/-- Outcome of the hover command: it threw, returned a nullish value,
or returned a (possibly empty) list of hovers, each a content list. -/
inductive HoverOutcome where
  | throws
  | nullish
  | hovers (hs : List (List HoverContent))
deriving DecidableEq, Repr

/-- parts.join of all content texts of all hovers, newline-separated. -/
def joinedHoverText (hs : List (List HoverContent)) : String :=
  String.intercalate "\n" (hs.flatMap fun h => h.map HoverContent.text)

/-- getHoverTypeAt from the source: the thrown case is caught and
yields null, a nullish or empty hover list yields null, and a joined
text that is the empty string yields null (the `text || null` fallback);
otherwise the joined text is returned. -/
def getHoverTypeAt (o : HoverOutcome) : Option String :=
  match o with
  | .throws => none
  | .nullish => none
  | .hovers hs =>
    if hs.isEmpty then none
    else
      let text := joinedHoverText hs
      if text = "" then none else some text

/-- The four wrapper-type family names of the classifier regex, in its
alternation order. -/
def familyNames : List (List Char) :=
  ["Ref".toList, "ShallowRef".toList, "ComputedRef".toList, "WritableComputedRef".toList]

/-- Tail test of the classifier regex after a family name: optional
whitespace, then a literal generic-argument opening angle bracket. -/
def wsThenLt (s : List Char) : Bool :=
  match s.dropWhile isWsChar with
  | '<' :: _ => true
  | _ => false

/-- One attempt of the classifier regex at a fixed start position:
`prev` is the character before the position (none at the string start);
the word boundary holds there exactly when `prev` is absent or not a
word character, because every family name starts with a word character. -/
def refHitAt (prev : Option Char) (s : List Char) : Bool :=
  (match prev with | none => true | some c => !isWordChar c) &&
  familyNames.any fun n =>
    match stripLit n s with
    | some r => wsThenLt r
    | none => false

/-- The regex test's scan over all start positions. -/
def refTestFrom (prev : Option Char) : List Char → Bool
  | [] => false
  | c :: rest => refHitAt prev (c :: rest) || refTestFrom (some c) rest

/-- The classifier regex applied to a whole hover text. -/
def refLikeTest (s : List Char) : Bool :=
  refTestFrom none s

/-- isRefLike from the source: a null hover text classifies as false,
otherwise the classifier regex is applied to the whole joined text. -/
def isRefLike (o : HoverOutcome) : Bool :=
  match getHoverTypeAt o with
  | none => false
  | some t => refLikeTest t.toList

/-! Spec-side restatement of the eligibility rule, used to compare the
classifier the claim describes with the classifier the code computes. -/

/-- The first text block of the hover query's result, per the claim's
words ("the first text block returned by the hover query"). -/
def firstTextBlock (o : HoverOutcome) : Option (List Char) :=
  match o with
  | .hovers hs => ((hs.flatMap fun h => h.map HoverContent.text).head?).map String.toList
  | _ => none

/-- The substring after the first colon of a line, when the line has
one. -/
def afterFirstColon (ln : List Char) : Option (List Char) :=
  match ln.dropWhile (fun c => !(c == ':')) with
  | ':' :: rest => some rest
  | _ => none

/-- The claim's anchored family-name test on the extracted type
annotation: the annotation begins with a family name, followed by a
word boundary or an immediately following generic-argument opening
marker. -/
def specFamilyAnchored (ann : List Char) : Bool :=
  familyNames.any fun n =>
    match stripLit n ann with
    | some rest =>
      (match rest with
       | [] => true
       | c :: _ => !isWordChar c || c == '<')
    | none => false

/-- The eligibility classifier exactly as claim C3 describes it: in the
first text block, take the substring after the first colon on a line
(the first line that has one) and test it with the anchored family-name
match; everything else classifies as unmatched. -/
def specClassify (o : HoverOutcome) : Bool :=
  match firstTextBlock o with
  | none => false
  | some block =>
    match (block.splitOn '\n').findSome? afterFirstColon with
    | some ann => specFamilyAnchored ann
    | none => false

/-! The decoration pass (the body of applyDecorations).  The pass is a
pure function of the document lines, visible ranges, selections, and
the hover outcome at each queried position; it returns the four
decoration lists it pushes to the host and the new value of the
lastHiddenValueRanges cache.  The incoming cache is never read by the
pass (the source only overwrites the module-level variable). -/

/-- The four per-pass decoration lists, one per decoration type, in the
order the source pushes them. -/
structure DecorationSets where
  valueDecorations : List Range
  hideLineDecos : List Range
  dotDecos : List Range
  dollarDecos : List Range
deriving DecidableEq, Repr

/-- The value-accessor ranges the pass accepts: not touched by any
selection, not starting at column 0, and classified Ref-like by the
hover oracle at the range's start (the receiver end), in the source's
check order. -/
def acceptedValueRanges (doc : List String) (vis : List Range)
    (sels : List Selection) (hov : Position → HoverOutcome) : List Range :=
  (findValueRangesInVisible doc vis).filter fun r =>
    !anySelectionTouches r sels &&
    decide (1 ≤ r.start.character) &&
    isRefLike (hov r.start)

/-- The computed pairs the pass keeps: dropped when a selection touches
the assignment range or the dollar range. -/
def keptPairs (doc : List String) (vis : List Range)
    (sels : List Selection) : List ComputedPair :=
  (findComputedPairsInVisible doc vis).filter fun p =>
    !(anySelectionTouches p.assignRange sels || anySelectionTouches p.dollarRange sels)

/-- One complete run of the applyDecorations body: the pushed
decoration lists and the new lastHiddenValueRanges cache (the accepted
value ranges). -/
def applyDecorationsPass (doc : List String) (vis : List Range)
    (sels : List Selection) (hov : Position → HoverOutcome) :
    DecorationSets × List Range :=
  let accepted := acceptedValueRanges doc vis sels hov
  let kept := keptPairs doc vis sels
  ({ valueDecorations := accepted
     hideLineDecos := kept.map (·.assignRange)
     dotDecos := kept.map (·.dotAnchor)
     dollarDecos := kept.map (·.dollarRange) }, accepted)

/-- The pass threaded through the cache state: the incoming cache is
ignored because the source's applyDecorations never reads
lastHiddenValueRanges, it only assigns it. -/
def applyDecorationsWithCache (doc : List String) (vis : List Range)
    (sels : List Selection) (hov : Position → HoverOutcome)
    (_lastHiddenValueRanges : List Range) : DecorationSets × List Range :=
  applyDecorationsPass doc vis sels hov

/-! Event-loop model for the superseded-pass question.  A running pass
is a sequence of atomic event-loop slices: one suspension per awaited
oracle query (the `await isRefLike` calls), then one terminal slice in
which all four setDecorations calls and the cache assignment run with
no suspension between them.  Two passes may interleave arbitrarily at
suspension points; the decoration state after a trace is the payload of
the last write slice executed. -/

/-- How many oracle queries a pass awaits: one per scanned value range
that survives the selection check and the column check (the query runs
before its result is known). -/
def oracleCallCount (doc : List String) (vis : List Range)
    (sels : List Selection) : Nat :=
  ((findValueRangesInVisible doc vis).filter fun r =>
    !anySelectionTouches r sels && decide (1 ≤ r.start.character)).length

/-- An atomic event-loop slice of a pass. -/
inductive PassAction where
  | awaitOracle
  | writeDecorations (out : DecorationSets)
deriving DecidableEq, Repr

/-- The slice sequence of one pass over a fixed snapshot of inputs. -/
def passActions (doc : List String) (vis : List Range)
    (sels : List Selection) (hov : Position → HoverOutcome) : List PassAction :=
  List.replicate (oracleCallCount doc vis sels) .awaitOracle ++
  [.writeDecorations (applyDecorationsPass doc vis sels hov).1]

/-- A trace interleaves two passes when its false-tagged slices are
exactly the first pass's slices in order and its true-tagged slices are
exactly the second pass's slices in order. -/
def isInterleaving (t : List (Bool × PassAction))
    (a b : List PassAction) : Prop :=
  (t.filter (fun x => !x.1)).map (·.2) = a ∧
  (t.filter (fun x => x.1)).map (·.2) = b

/-- The decoration state after a trace: whole-set replacement by each
write slice, so the last write wins. -/
def finalDecorations (t : List (Bool × PassAction)) : Option DecorationSets :=
  t.foldl
    (fun acc x =>
      match x.2 with
      | .writeDecorations o => some o
      | .awaitOracle => acc)
    none

/-- The write payloads of a trace, in execution order. -/
def writesOf (t : List (Bool × PassAction)) : List DecorationSets :=
  t.filterMap fun x =>
    match x.2 with
    | .writeDecorations o => some o
    | .awaitOracle => none

/-! Caret nudge (adjustCaretAfterMiddot) and its frame.  The source
reads only the re-entrancy flag, the lastHiddenValueRanges cache and
the current selections (its local `doc` binding is unused), and writes
only the selections.  The (line, column-set) index it builds is keyed
by exactly the predicate of the subsequent `find` call, so the index
lookup is elided: the member test and the find succeed together. -/

/-- The per-selection body of the nudge loop: a non-collapsed selection
is kept; a collapsed caret whose position is one character past the
start of some cached range (the first such range, by the `find` call)
moves to that range's end; any other caret is kept. -/
def nudgeSel (cache : List Range) (sel : Selection) : Selection :=
  if sel.anchor = sel.active then
    match cache.find? (fun r =>
        r.start.line == sel.active.line &&
        r.start.character + 1 == sel.active.character) with
    | some m => ⟨m.stop, m.stop⟩
    | none => sel
  else sel

/-- adjustCaretAfterMiddot from the source: under the re-entrancy flag
or with an empty cache or no selections, leave the selections as they
are; otherwise run the nudge body over every selection in order. -/
def adjustCaretAfterMiddot (isAdjustingCaret : Bool) (cache : List Range)
    (sels : List Selection) : List Selection :=
  if isAdjustingCaret then sels
  else if cache.isEmpty then sels
  else if sels.isEmpty then sels
  else sels.map (nudgeSel cache)

/-- The visible editor state the nudge step can affect: document text
and selections.  Decorations are applied elsewhere. -/
structure EditorState where
  doc : List String
  sels : List Selection
deriving DecidableEq, Repr

/-- The nudge step acting on the editor state: it issues no text edit,
so the document passes through untouched and only the selections are
replaced. -/
def adjustCaretOnEditor (isAdjustingCaret : Bool) (cache : List Range)
    (e : EditorState) : EditorState :=
  { e with sels := adjustCaretAfterMiddot isAdjustingCaret cache e.sels }

/-- The caret-gate condition exactly as the claims state it: some
selection's range intersects the span, or some selection's collapsed
caret sits exactly at the span's end position. -/
def claimTouches (r : Range) (sels : List Selection) : Prop :=
  ∃ sel ∈ sels,
    (Range.intersection r sel.toRange).isSome = true ∨
    (sel.anchor = sel.active ∧ sel.active = r.stop)

/-- The character before position `i` of the scanned text, after
consuming the list `pre`: the last consumed character, or the character
before the whole scan when nothing was consumed yet. -/
def prevAfter (prev : Option Char) : List Char → Option Char
  | [] => prev
  | c :: l => prevAfter (some c) l

/-! Concrete sample inputs used by counterexamples and witnesses. -/

/-- A document whose assignment binds method `bar` while assigning
property `foo`, with the `$bar` method present on the next line: the
assigned property name and the paired method name differ. -/
def mismatchDoc : List String :=
  ["  foo = computed(this.$bar.bind(this));", "  $bar()"]

/-- Visible ranges covering both lines of the two-line samples. -/
def mismatchVis : List Range :=
  [⟨⟨0, 0⟩, ⟨1, 0⟩⟩]

/-- A wrapper-factory call whose argument list spans three lines, with
the bound method present afterwards. -/
def splitCallDoc : List String :=
  ["  foo = computed(", "    this.$foo.bind(this)", "  );", "  $foo()"]

/-- Visible ranges covering all four lines of `splitCallDoc`. -/
def splitCallVis : List Range :=
  [⟨⟨0, 0⟩, ⟨3, 0⟩⟩]

/-- An oracle answering every query with a Ref-typed hover. -/
def refHoverSample : Position → HoverOutcome :=
  fun _ => .hovers [[.markup "const ab: Ref<number>"]]

/-- An oracle answering every query with a nullish result. -/
def nullHoverSample : Position → HoverOutcome :=
  fun _ => .nullish

/-- A hover whose type annotation is a bare family name with no generic
argument after it. -/
def colonRefHover : HoverOutcome :=
  .hovers [[.markup "x:Ref"]]

/-- Document snapshot of an older pass with one value-accessor
candidate (so that the pass suspends once at the oracle). -/
def raceOldDoc : List String :=
  ["ab.value"]

/-- Document snapshot of a newer pass with no candidates. -/
def raceNewDoc : List String :=
  ["zz"]

/-- Visible range covering line 0 of the one-line race samples. -/
def raceVis : List Range :=
  [⟨⟨0, 0⟩, ⟨0, 0⟩⟩]

/-- An event-loop trace in which the older pass suspends at its oracle
query, the newer pass then runs to completion and writes, and finally
the older pass resumes and writes its own (stale) decoration sets. -/
def raceTrace : List (Bool × PassAction) :=
  [(false, .awaitOracle),
   (true, .writeDecorations (applyDecorationsPass raceNewDoc raceVis [] nullHoverSample).1),
   (false, .writeDecorations (applyDecorationsPass raceOldDoc raceVis [] refHoverSample).1)]

/-! Helper lemmas about the embedded operations. -/

/-- Every index the exec loop emits satisfies the match predicate. -/
theorem valueMatchAt_of_mem_reValueScanAux {s : List Char} :
    ∀ {fuel i j : Nat}, j ∈ reValueScanAux s fuel i → valueMatchAt s j = true := by
  intro fuel
  induction fuel with
  | zero => intro i j h; simp [reValueScanAux] at h
  | succ n ih =>
    intro i j h
    rw [reValueScanAux] at h
    by_cases hlt : i < s.length
    · rw [if_pos hlt] at h
      by_cases hm : valueMatchAt s i = true
      · rw [if_pos hm] at h
        rcases List.mem_cons.mp h with hji | htail
        · exact hji ▸ hm
        · exact ih htail
      · rw [if_neg hm] at h
        exact ih h
    · rw [if_neg hlt] at h
      simp at h

/-- The claim-side touch condition implies the source's boolean test. -/
theorem anySelectionTouches_of_claimTouches {r : Range} {sels : List Selection}
    (h : claimTouches r sels) : anySelectionTouches r sels = true := by
  obtain ⟨sel, hmem, hcase⟩ := h
  rw [anySelectionTouches, List.any_eq_true]
  refine ⟨sel, hmem, ?_⟩
  rcases hcase with hint | ⟨_, hend⟩
  · rw [hint]; rfl
  · have : positionsEqual sel.active r.stop = true := by
      rw [hend, positionsEqual]; simp
    rw [this]; simp

/-- Splitting a prefix succeeds exactly on lists that extend it. -/
theorem stripLit_eq_some {p : List Char} :
    ∀ {s r : List Char}, stripLit p s = some r ↔ s = p ++ r := by
  induction p with
  | nil =>
    intro s r
    simp [stripLit]
  | cons a p ih =>
    intro s r
    cases s with
    | nil => simp [stripLit]
    | cons c cs =>
      by_cases hac : a = c
      · subst hac
        rw [stripLit, if_pos rfl, List.cons_append, List.cons_eq_cons]
        simp [ih]
      · rw [stripLit, if_neg hac, List.cons_append]
        constructor
        · intro h; cases h
        · intro h
          exact absurd (List.cons_eq_cons.mp h).1.symm hac

/-- The scan never hits inside the empty remainder. -/
theorem refHitAt_nil (prev : Option Char) : refHitAt prev [] = false := by
  have hfam : (familyNames.any fun n =>
      match stripLit n [] with
      | some r => wsThenLt r
      | none => false) = false := by decide
  unfold refHitAt
  rw [hfam, Bool.and_false]

/-- The regex test succeeds exactly when some split of the text puts a
hit at the split point, with the tracked previous character. -/
theorem refTestFrom_iff_exists :
    ∀ (s : List Char) (prev : Option Char),
      refTestFrom prev s = true ↔
        ∃ pre suf, s = pre ++ suf ∧ refHitAt (prevAfter prev pre) suf = true := by
  intro s
  induction s with
  | nil =>
    intro prev
    constructor
    · intro h; simp [refTestFrom] at h
    · rintro ⟨pre, suf, heq, hhit⟩
      have hsuf : suf = [] := (List.append_eq_nil.mp heq.symm).2
      rw [hsuf, refHitAt_nil] at hhit
      cases hhit
  | cons c t ih =>
    intro prev
    rw [refTestFrom, Bool.or_eq_true]
    constructor
    · rintro (hhit | htest)
      · exact ⟨[], c :: t, rfl, hhit⟩
      · obtain ⟨pre, suf, heq, hhit⟩ := (ih (some c)).mp htest
        exact ⟨c :: pre, suf, by rw [List.cons_append, heq], hhit⟩
    · rintro ⟨pre, suf, heq, hhit⟩
      cases pre with
      | nil =>
        left
        rw [List.nil_append] at heq
        rw [heq]
        exact hhit
      | cons p ps =>
        right
        rw [List.cons_append] at heq
        obtain ⟨hp, ht⟩ := List.cons_eq_cons.mp heq
        rw [← hp] at hhit
        exact (ih (some c)).mpr ⟨ps, suf, ht, hhit⟩

/-- The previous-character tracker ends at the last consumed character. -/
theorem prevAfter_eq_some_getLast :
    ∀ (l : List Char) (prev : Option Char) (c : Char),
      l.getLast? = some c → prevAfter prev l = some c := by
  intro l
  induction l with
  | nil => intro prev c h; simp at h
  | cons a l ih =>
    intro prev c h
    cases l with
    | nil =>
      simp at h
      rw [h]
      rfl
    | cons b m =>
      rw [List.getLast?_cons_cons] at h
      exact ih (some a) c h

/-- Membership in the per-line scan implies the match predicate. -/
theorem valueMatchAt_of_mem_reValueScan {s : List Char} {j : Nat}
    (h : j ∈ reValueScan s) : valueMatchAt s j = true :=
  valueMatchAt_of_mem_reValueScanAux h

/-! Claim theorems. -/

/-- C3, counterexample: on the hover text `x:Ref` the classifier the
claim describes (annotation after the first colon begins with a family
name followed by a word boundary or a generic-argument marker) says
matched, but the code's classifier says unmatched — the code requires a
literal generic-argument opening angle bracket after the family name, a
word boundary alone does not suffice. -/
theorem C3_counterexample :
    specClassify colonRefHover = true ∧ isRefLike colonRefHover = false := by
  constructor <;> decide

/-- C3, amended: the code classifies a hover as matched exactly when
the whole joined hover text (not just its first block, and with no role
for any colon) contains one of the four wrapper family names, preceded
by nothing or a non-word character, and followed by optional whitespace
and a literal generic-argument opening angle bracket. -/
theorem C3_theorem :
    ∀ s : List Char,
      refLikeTest s = true ↔
        ∃ pre n rest, n ∈ familyNames ∧ s = pre ++ (n ++ rest) ∧
          (∀ c, pre.getLast? = some c → isWordChar c = false) ∧
          wsThenLt rest = true := by
  intro s
  rw [refLikeTest, refTestFrom_iff_exists]
  constructor
  · rintro ⟨pre, suf, heq, hhit⟩
    unfold refHitAt at hhit
    rw [Bool.and_eq_true, List.any_eq_true] at hhit
    obtain ⟨hbound, n, hn, hf⟩ := hhit
    cases hstrip : stripLit n suf with
    | none => rw [hstrip] at hf; cases hf
    | some rest =>
      rw [hstrip] at hf
      refine ⟨pre, n, rest, hn, ?_, ?_, hf⟩
      · rw [heq, stripLit_eq_some.mp hstrip]
      · intro c hc
        rw [prevAfter_eq_some_getLast pre none c hc] at hbound
        simpa using hbound
  · rintro ⟨pre, n, rest, hn, heq, hbound, hws⟩
    refine ⟨pre, n ++ rest, heq, ?_⟩
    unfold refHitAt
    rw [Bool.and_eq_true, List.any_eq_true]
    constructor
    · cases hl : pre.getLast? with
      | some c =>
        rw [prevAfter_eq_some_getLast pre none c hl]
        simpa using hbound c hl
      | none =>
        have : pre = [] := List.getLast?_eq_none_iff.mp hl
        rw [this]
        rfl
    · refine ⟨n, hn, ?_⟩
      rw [stripLit_eq_some.mpr rfl]
      exact hws

/-- C3, witness: the amended characterization applied at a concrete
hover text containing a family name with a generic argument. -/
theorem C3_witness : refLikeTest "x: Ref<number>".toList = true :=
  ( C3_theorem "x: Ref<number>".toList).mpr
    ⟨"x: ".toList, "Ref".toList, "<number>".toList,
     by decide, by decide, by decide, by decide⟩

/-- C6: the accessor scanner matches only at exact token boundaries: in
`myvalueX.value` only the trailing `.value` span is produced, in
`x.valueable` nothing is produced, and in general every produced range
starts at a position where the line carries the literal six characters
`.value` followed by the end of the line or a non-word character, and
spans exactly those six characters. -/
theorem C6_theorem :
    findValueRangesInVisible ["myvalueX.value"] [⟨⟨0, 0⟩, ⟨0, 0⟩⟩] =
        [⟨⟨0, 8⟩, ⟨0, 14⟩⟩] ∧
    findValueRangesInVisible ["x.valueable"] [⟨⟨0, 0⟩, ⟨0, 0⟩⟩] = [] ∧
    ∀ (doc : List String) (vis : List Range) (r : Range),
      r ∈ findValueRangesInVisible doc vis →
      valueMatchAt (lineAt doc r.start.line) r.start.character = true ∧
      r.stop = ⟨r.start.line, r.start.character + 6⟩ := by
  refine ⟨by decide, by decide, ?_⟩
  intro doc vis r hmem
  simp only [findValueRangesInVisible, List.mem_flatMap, List.mem_map] at hmem
  obtain ⟨line, _, i, hi, heq⟩ := hmem
  rw [← heq]
  exact ⟨valueMatchAt_of_mem_reValueScan hi, rfl⟩

/-- C6, witness: the boundary property of the theorem applied to the
concrete match of `.value` in the one-line document `a.value`. -/
theorem C6_witness :
    valueMatchAt (lineAt ["a.value"] 0) 1 = true ∧
    (⟨⟨0, 1⟩, ⟨0, 7⟩⟩ : Range).stop = ⟨0, 7⟩ :=
  C6_theorem.2.2 ["a.value"] [⟨⟨0, 0⟩, ⟨0, 0⟩⟩] ⟨⟨0, 1⟩, ⟨0, 7⟩⟩ (by decide)

/-- C7: every failure path of the hover query — it throws, returns a
nullish result, returns an empty hover list, or returns hovers whose
contents join to the empty string — classifies the candidate as
unmatched; the thrown case is absorbed by the catch inside
getHoverTypeAt, so no exception escapes the classify step. -/
theorem C7_theorem :
    ∀ o : HoverOutcome,
      (o = .throws ∨ o = .nullish ∨ o = .hovers [] ∨
        ∃ hs, o = .hovers hs ∧ joinedHoverText hs = "") →
      isRefLike o = false := by
  intro o h
  rcases h with h | h | h | ⟨hs, h, hjoin⟩
  · rw [h]; rfl
  · rw [h]; rfl
  · rw [h]; rfl
  · rw [h]
    by_cases he : hs.isEmpty
    · simp [isRefLike, getHoverTypeAt, he]
    · simp [isRefLike, getHoverTypeAt, he, hjoin]

/-- C7, witness: the failure rule applied to the thrown-query case. -/
theorem C7_witness : isRefLike .throws = false :=
  C7_theorem .throws (Or.inl rfl)

/-- C9: the pass is idempotent: with the document, visible ranges,
selections, and oracle answers fixed, running the pass again on the
cache state the first run left behind produces the same four decoration
lists and the same cache, because the pass is a pure function of its
inputs that overwrites the cache without ever reading it. -/
theorem C9_theorem :
    ∀ (doc : List String) (vis : List Range) (sels : List Selection)
      (hov : Position → HoverOutcome) (cache : List Range),
      applyDecorationsWithCache doc vis sels hov
          (applyDecorationsWithCache doc vis sels hov cache).2 =
        applyDecorationsWithCache doc vis sels hov cache := by
  intro doc vis sels hov cache
  rfl

/-- C4: a span that the claim's touch condition hits — some selection
intersects it, or some collapsed caret sits exactly at its end — is
excluded from the hidden decoration list of the pass, and a computed
pair either of whose halves is hit is dropped whole from the kept
pairs, so none of its three decoration entries is pushed. -/
theorem C4_theorem :
    ∀ (doc : List String) (vis : List Range) (sels : List Selection)
      (hov : Position → HoverOutcome),
      (∀ r : Range, claimTouches r sels →
        r ∉ (applyDecorationsPass doc vis sels hov).1.valueDecorations) ∧
      (∀ p : ComputedPair,
        claimTouches p.assignRange sels ∨ claimTouches p.dollarRange sels →
        p ∉ keptPairs doc vis sels) := by
  intro doc vis sels hov
  constructor
  · intro r hct hmem
    have hmem' : r ∈ acceptedValueRanges doc vis sels hov := hmem
    rw [acceptedValueRanges, List.mem_filter] at hmem'
    rw [anySelectionTouches_of_claimTouches hct] at hmem'
    simp at hmem'
  · intro p hct hmem
    rw [keptPairs, List.mem_filter] at hmem
    rcases hct with hca | hcd
    · rw [anySelectionTouches_of_claimTouches hca] at hmem
      simp at hmem
    · rw [anySelectionTouches_of_claimTouches hcd] at hmem
      simp at hmem

/-- C4, witness: a caret inside the `.value` span of `ab.value` keeps
that span out of the hidden list even though the oracle approves it. -/
theorem C4_witness :
    (⟨⟨0, 2⟩, ⟨0, 8⟩⟩ : Range) ∉
      (applyDecorationsPass ["ab.value"] raceVis [⟨⟨0, 3⟩, ⟨0, 3⟩⟩]
        refHoverSample).1.valueDecorations :=
  ( C4_theorem ["ab.value"] raceVis [⟨⟨0, 3⟩, ⟨0, 3⟩⟩] refHoverSample).1
    ⟨⟨0, 2⟩, ⟨0, 8⟩⟩ ⟨⟨⟨0, 3⟩, ⟨0, 3⟩⟩, by decide, Or.inl (by decide)⟩

/-- C1, counterexample: in a document whose assignment binds method
`bar` while assigning property `foo` — the paired method is named
differently from the assigned property — a FoldPair is still emitted,
contradicting the claim that no FoldPair is emitted in that case: the
code never compares the assigned name with the bound name. -/
theorem C1_counterexample :
    computedAssignMatch (lineAt mismatchDoc 0) =
        some ("foo".toList, "bar".toList) ∧
    "foo".toList ≠ "bar".toList ∧
    findComputedPairsInVisible mismatchDoc mismatchVis =
      [{ assignRange := ⟨⟨0, 0⟩, ⟨0, 39⟩⟩
         dotAnchor := ⟨⟨0, 2⟩, ⟨0, 2⟩⟩
         dollarRange := ⟨⟨1, 2⟩, ⟨1, 3⟩⟩ }] :=
  ⟨by decide, by decide, by decide⟩

/-- C1, amended: a FoldPair is emitted for a visible line exactly on
the two conditions the code checks — the line matches the assignment
regex and the extracted bound name has an entry in the method index
built from all visible method-signature lines — with no comparison of
the assigned property name against the bound name, no enclosing-block
scoping, and no nearest-following requirement; here the assigned name
is an unconstrained variable, so emission is independent of it. -/
theorem C1_theorem :
    ∀ (doc : List String) (vis : List Range) (line : Nat)
      (lhsName rhsMethod : List Char) (methodRange : Range),
      line ∈ visibleLines vis →
      computedAssignMatch (lineAt doc line) = some (lhsName, rhsMethod) →
      mapGet? (methodIndex doc vis) rhsMethod = some methodRange →
      ({ assignRange := ⟨⟨line, 0⟩, ⟨line, (lineAt doc line).length⟩⟩
         dotAnchor := ⟨⟨line, firstNonWsCol (lineAt doc line)⟩,
                       ⟨line, firstNonWsCol (lineAt doc line)⟩⟩
         dollarRange := methodRange } : ComputedPair) ∈
        findComputedPairsInVisible doc vis := by
  intro doc vis line lhsName rhsMethod methodRange hline hassign hidx
  simp only [findComputedPairsInVisible, List.mem_filterMap]
  refine ⟨line, hline, ?_⟩
  simp only [hassign, hidx]

/-- C1, witness: the amended rule applied to the mismatched document —
assigned name `foo`, bound name `bar` — still yields a pair. -/
theorem C1_witness :
    ({ assignRange := ⟨⟨0, 0⟩, ⟨0, (lineAt mismatchDoc 0).length⟩⟩
       dotAnchor := ⟨⟨0, firstNonWsCol (lineAt mismatchDoc 0)⟩,
                     ⟨0, firstNonWsCol (lineAt mismatchDoc 0)⟩⟩
       dollarRange := ⟨⟨1, 2⟩, ⟨1, 3⟩⟩ } : ComputedPair) ∈
      findComputedPairsInVisible mismatchDoc mismatchVis :=
  C1_theorem mismatchDoc mismatchVis 0 "foo".toList "bar".toList
    ⟨⟨1, 2⟩, ⟨1, 3⟩⟩ (by decide) (by decide) (by decide)

/-- C2, counterexample: a wrapper-factory call whose argument list
spans three lines produces no candidate at all — no line matches the
single-line assignment regex and no pair is emitted — contradicting the
claim that the scanner captures the whole multi-line call as one span
and extracts its bound name. -/
theorem C2_counterexample :
    computedAssignMatch (lineAt splitCallDoc 0) = none ∧
    computedAssignMatch (lineAt splitCallDoc 1) = none ∧
    computedAssignMatch (lineAt splitCallDoc 2) = none ∧
    findComputedPairsInVisible splitCallDoc splitCallVis = [] :=
  ⟨by decide, by decide, by decide, by decide⟩

/-- C2, amended: the assignment scanner is strictly line-local: every
emitted pair comes from a single visible line that matches the whole
single-line assignment regex, and its assignment span covers exactly
that one line; an assignment whose call spans several lines never
matches, and no balanced-parenthesis or string-aware scan across lines
is performed by this scanner. -/
theorem C2_theorem :
    ∀ (doc : List String) (vis : List Range) (p : ComputedPair),
      p ∈ findComputedPairsInVisible doc vis →
      ∃ line lhsName rhsMethod,
        line ∈ visibleLines vis ∧
        computedAssignMatch (lineAt doc line) = some (lhsName, rhsMethod) ∧
        p.assignRange = ⟨⟨line, 0⟩, ⟨line, (lineAt doc line).length⟩⟩ := by
  intro doc vis p hmem
  simp only [findComputedPairsInVisible, List.mem_filterMap] at hmem
  obtain ⟨line, hline, hf⟩ := hmem
  cases hassign : computedAssignMatch (lineAt doc line) with
  | none => rw [hassign] at hf; cases hf
  | some pr =>
    obtain ⟨lhsName, rhsMethod⟩ := pr
    simp only [hassign] at hf
    cases hidx : mapGet? (methodIndex doc vis) rhsMethod with
    | none => rw [hidx] at hf; cases hf
    | some methodRange =>
      simp only [hidx, Option.some.injEq] at hf
      subst hf
      exact ⟨line, lhsName, rhsMethod, hline, hassign, rfl⟩

/-- C2, witness: the line-local characterization applied to the pair
emitted for the single-line assignment of the mismatched document. -/
theorem C2_witness :
    ∃ line lhsName rhsMethod,
      line ∈ visibleLines mismatchVis ∧
      computedAssignMatch (lineAt mismatchDoc line) = some (lhsName, rhsMethod) ∧
      ({ assignRange := ⟨⟨0, 0⟩, ⟨0, 39⟩⟩
         dotAnchor := ⟨⟨0, 2⟩, ⟨0, 2⟩⟩
         dollarRange := ⟨⟨1, 2⟩, ⟨1, 3⟩⟩ } : ComputedPair).assignRange =
        ⟨⟨line, 0⟩, ⟨line, (lineAt mismatchDoc line).length⟩⟩ :=
  C2_theorem mismatchDoc mismatchVis _ (by decide)

/-- An empty cache makes the nudge body the identity. -/
theorem nudgeSel_cache_nil (sel : Selection) : nudgeSel [] sel = sel := by
  unfold nudgeSel
  exact ite_self sel

/-- Outside the guard cases, the nudge is the selection-wise map of the
nudge body; in the guard cases the body is the identity anyway, so the
equation holds unconditionally. -/
theorem adjustCaretAfterMiddot_false_eq_map (cache : List Range)
    (sels : List Selection) :
    adjustCaretAfterMiddot false cache sels = sels.map (nudgeSel cache) := by
  unfold adjustCaretAfterMiddot
  by_cases hc : cache.isEmpty
  · have hcache : cache = [] := List.isEmpty_iff.mp hc
    subst hcache
    simp only [List.isEmpty_nil, if_true, Bool.false_eq_true, if_false]
    induction sels with
    | nil => rfl
    | cons a l ih => rw [List.map_cons, nudgeSel_cache_nil, ← ih]
  · by_cases hs : sels.isEmpty
    · have hsels : sels = [] := List.isEmpty_iff.mp hs
      subst hsels
      simp
    · simp [hc, hs]

/-- C8: the caret nudge is guarded by the re-entrancy flag — with the
flag raised it changes nothing, so the selection change it issues
cannot re-trigger another nudge — and for every collapsed caret sitting
exactly one character past the start of a cached hidden span (the first
such span found in the cache), the caret moves to that span's end; the
step consumes only the flag, the cache of the completed pass and the
selections, never the document (the source's local document binding is
unused, so no rescan can occur). -/
theorem C8_theorem :
    (∀ (cache : List Range) (sels : List Selection),
      adjustCaretAfterMiddot true cache sels = sels) ∧
    ∀ (cache : List Range) (sels : List Selection) (k : Nat)
      (sel : Selection) (m : Range),
      sels.get? k = some sel →
      sel.anchor = sel.active →
      cache.find? (fun r =>
        r.start.line == sel.active.line &&
        r.start.character + 1 == sel.active.character) = some m →
      (adjustCaretAfterMiddot false cache sels).get? k = some ⟨m.stop, m.stop⟩ := by
  constructor
  · intro cache sels; rfl
  · intro cache sels k sel m hget hcollapsed hfind
    rw [adjustCaretAfterMiddot_false_eq_map, List.get?_map, hget]
    simp only [Option.map_some']
    unfold nudgeSel
    rw [if_pos hcollapsed]
    simp only [hfind]

/-- C8, witness: the guard and the movement rule at a concrete cache
and caret: the caret at column 3 (one past the span start at column 2)
moves to the span end at column 8 when the flag is down, and stays when
the flag is up. -/
theorem C8_witness :
    adjustCaretAfterMiddot true [⟨⟨0, 2⟩, ⟨0, 8⟩⟩] [⟨⟨0, 3⟩, ⟨0, 3⟩⟩] =
        [⟨⟨0, 3⟩, ⟨0, 3⟩⟩] ∧
    (adjustCaretAfterMiddot false [⟨⟨0, 2⟩, ⟨0, 8⟩⟩] [⟨⟨0, 3⟩, ⟨0, 3⟩⟩]).get? 0 =
      some ⟨⟨0, 8⟩, ⟨0, 8⟩⟩ :=
  ⟨C8_theorem.1 [⟨⟨0, 2⟩, ⟨0, 8⟩⟩] [⟨⟨0, 3⟩, ⟨0, 3⟩⟩],
   C8_theorem.2 [⟨⟨0, 2⟩, ⟨0, 8⟩⟩] [⟨⟨0, 3⟩, ⟨0, 3⟩⟩] 0 ⟨⟨0, 3⟩, ⟨0, 3⟩⟩
     ⟨⟨0, 2⟩, ⟨0, 8⟩⟩ (by decide) (by decide) (by decide)⟩

/-- C10: the caret-nudge step is selection-frame-preserving: the
document text passes through untouched (the step issues no edit), the
returned selection list has the same length and order as the input, and
every selection that is non-empty, or whose active position is not
exactly one character past the start of a cached span, comes back
unchanged. -/
theorem C10_theorem :
    ∀ (flag : Bool) (cache : List Range) (e : EditorState),
      (adjustCaretOnEditor flag cache e).doc = e.doc ∧
      (adjustCaretOnEditor flag cache e).sels.length = e.sels.length ∧
      ∀ (k : Nat) (sel : Selection),
        e.sels.get? k = some sel →
        (sel.anchor ≠ sel.active ∨
          cache.find? (fun r =>
            r.start.line == sel.active.line &&
            r.start.character + 1 == sel.active.character) = none) →
        (adjustCaretOnEditor flag cache e).sels.get? k = some sel := by
  intro flag cache e
  have hsels : (adjustCaretOnEditor flag cache e).sels =
      adjustCaretAfterMiddot flag cache e.sels := rfl
  cases flag with
  | true => exact ⟨rfl, rfl, fun k sel hget _ => hget⟩
  | false =>
    refine ⟨rfl, ?_, ?_⟩
    · rw [hsels, adjustCaretAfterMiddot_false_eq_map, List.length_map]
    · intro k sel hget hcond
      rw [hsels, adjustCaretAfterMiddot_false_eq_map, List.get?_map, hget]
      have hid : nudgeSel cache sel = sel := by
        unfold nudgeSel
        rcases hcond with hne | hnone
        · rw [if_neg hne]
        · by_cases hanch : sel.anchor = sel.active
          · rw [if_pos hanch]
            simp only [hnone]
          · rw [if_neg hanch]
      simp only [Option.map_some', hid]

/-- C10, witness: a non-empty selection passes through the nudge step
unchanged, together with the document. -/
theorem C10_witness :
    (adjustCaretOnEditor false [⟨⟨0, 2⟩, ⟨0, 8⟩⟩]
        ⟨["ab.value"], [⟨⟨0, 5⟩, ⟨0, 6⟩⟩]⟩).doc = ["ab.value"] ∧
    (adjustCaretOnEditor false [⟨⟨0, 2⟩, ⟨0, 8⟩⟩]
        ⟨["ab.value"], [⟨⟨0, 5⟩, ⟨0, 6⟩⟩]⟩).sels.get? 0 =
      some ⟨⟨0, 5⟩, ⟨0, 6⟩⟩ :=
  ⟨(C10_theorem false [⟨⟨0, 2⟩, ⟨0, 8⟩⟩] ⟨["ab.value"], [⟨⟨0, 5⟩, ⟨0, 6⟩⟩]⟩).1,
   (C10_theorem false [⟨⟨0, 2⟩, ⟨0, 8⟩⟩] ⟨["ab.value"], [⟨⟨0, 5⟩, ⟨0, 6⟩⟩]⟩).2.2 0
     ⟨⟨0, 5⟩, ⟨0, 6⟩⟩ (by decide) (Or.inl (by decide))⟩

/-- The decoration state after a trace is the fold of its write
payloads alone: await slices leave the state untouched. -/
theorem finalDecorations_eq_writes_fold :
    ∀ (t : List (Bool × PassAction)) (acc : Option DecorationSets),
      t.foldl
          (fun acc x =>
            match x.2 with
            | .writeDecorations o => some o
            | .awaitOracle => acc) acc =
        (writesOf t).foldl (fun _ o => some o) acc := by
  intro t
  induction t with
  | nil => intro acc; rfl
  | cons x t ih =>
    intro acc
    obtain ⟨b, a⟩ := x
    cases a with
    | awaitOracle =>
      rw [List.foldl_cons]
      have hw : writesOf ((b, PassAction.awaitOracle) :: t) = writesOf t := by
        simp [writesOf, List.filterMap_cons]
      rw [hw]
      exact ih acc
    | writeDecorations o =>
      rw [List.foldl_cons]
      have hw : writesOf ((b, PassAction.writeDecorations o) :: t) =
          o :: writesOf t := by
        simp [writesOf, List.filterMap_cons]
      rw [hw, List.foldl_cons]
      exact ih (some o)

/-- Folding last-wins over a nonempty list lands on a member. -/
theorem foldl_some_mem :
    ∀ (l : List DecorationSets) (acc : Option DecorationSets),
      l = [] ∨ ∃ o ∈ l, l.foldl (fun _ o => some o) acc = some o := by
  intro l
  induction l with
  | nil => intro _; exact Or.inl rfl
  | cons a l ih =>
    intro acc
    right
    rcases ih (some a) with hnil | ⟨o, ho, heq⟩
    · subst hnil
      exact ⟨a, List.mem_cons_self a [], rfl⟩
    · exact ⟨o, List.mem_cons_of_mem a ho, by rw [List.foldl_cons]; exact heq⟩

/-- A payload is among a trace's writes exactly when some slice of the
trace writes it. -/
theorem mem_writesOf {t : List (Bool × PassAction)} {o : DecorationSets} :
    o ∈ writesOf t ↔ ∃ x ∈ t, x.2 = PassAction.writeDecorations o := by
  rw [writesOf, List.mem_filterMap]
  constructor
  · rintro ⟨x, hx, hf⟩
    cases ha : x.2 with
    | awaitOracle => rw [ha] at hf; cases hf
    | writeDecorations w =>
      simp only [ha, Option.some.injEq] at hf
      exact ⟨x, hx, by rw [ha, hf]⟩
  · rintro ⟨x, hx, hw⟩
    exact ⟨x, hx, by rw [hw]⟩

/-- C5, counterexample: the interleaving in which the older pass
suspends at its oracle query, the newer pass runs to completion and
writes its decorations, and the older pass then resumes and writes, is
a valid interleaving of the two passes' event-loop slices, and it
leaves the decorations of the older (superseded) pass installed, which
differ from the newer pass's decorations: the stale in-flight pass is
not discarded and overwrites the latest pass's output. -/
theorem C5_counterexample :
    isInterleaving raceTrace (passActions raceOldDoc raceVis [] refHoverSample)
        (passActions raceNewDoc raceVis [] nullHoverSample) ∧
    finalDecorations raceTrace =
      some (applyDecorationsPass raceOldDoc raceVis [] refHoverSample).1 ∧
    (applyDecorationsPass raceOldDoc raceVis [] refHoverSample).1 ≠
      (applyDecorationsPass raceNewDoc raceVis [] nullHoverSample).1 :=
  ⟨⟨by decide, by decide⟩, by decide, by decide⟩

/-- C5, amended: decoration replacement is atomic — after any valid
interleaving of a superseded pass with the latest pass, the installed
decorations are the complete output of one of the two passes, never a
mixture — but which one is decided by write order alone (last writer
wins, as in the counterexample), not by which pass is newest: nothing
discards a stale in-flight pass's output. -/
theorem C5_theorem :
    ∀ (t : List (Bool × PassAction))
      (doc₁ : List String) (vis₁ : List Range) (sels₁ : List Selection)
      (hov₁ : Position → HoverOutcome)
      (doc₂ : List String) (vis₂ : List Range) (sels₂ : List Selection)
      (hov₂ : Position → HoverOutcome),
      isInterleaving t (passActions doc₁ vis₁ sels₁ hov₁)
          (passActions doc₂ vis₂ sels₂ hov₂) →
      finalDecorations t = some (applyDecorationsPass doc₁ vis₁ sels₁ hov₁).1 ∨
      finalDecorations t = some (applyDecorationsPass doc₂ vis₂ sels₂ hov₂).1 := by
  intro t doc₁ vis₁ sels₁ hov₁ doc₂ vis₂ sels₂ hov₂ hint
  obtain ⟨h₁, h₂⟩ := hint
  have hmemw : ∀ o ∈ writesOf t,
      o = (applyDecorationsPass doc₁ vis₁ sels₁ hov₁).1 ∨
      o = (applyDecorationsPass doc₂ vis₂ sels₂ hov₂).1 := by
    intro o ho
    obtain ⟨x, hx, hw⟩ := mem_writesOf.mp ho
    cases hb : x.1 with
    | false =>
      have hxf : x ∈ t.filter (fun y => !y.1) :=
        List.mem_filter.mpr ⟨hx, by rw [hb]; rfl⟩
      have hxin : x.2 ∈ passActions doc₁ vis₁ sels₁ hov₁ := by
        rw [← h₁]
        exact List.mem_map_of_mem _ hxf
      rw [passActions] at hxin
      rcases List.mem_append.mp hxin with hrep | hlast
      · have := List.eq_of_mem_replicate hrep
        rw [hw] at this
        cases this
      · left
        have heq : PassAction.writeDecorations o =
            PassAction.writeDecorations (applyDecorationsPass doc₁ vis₁ sels₁ hov₁).1 := by
          rw [← hw]
          exact List.mem_singleton.mp hlast
        exact PassAction.writeDecorations.inj heq
    | true =>
      have hxf : x ∈ t.filter (fun y => y.1) :=
        List.mem_filter.mpr ⟨hx, by rw [hb]⟩
      have hxin : x.2 ∈ passActions doc₂ vis₂ sels₂ hov₂ := by
        rw [← h₂]
        exact List.mem_map_of_mem _ hxf
      rw [passActions] at hxin
      rcases List.mem_append.mp hxin with hrep | hlast
      · have := List.eq_of_mem_replicate hrep
        rw [hw] at this
        cases this
      · right
        have heq : PassAction.writeDecorations o =
            PassAction.writeDecorations (applyDecorationsPass doc₂ vis₂ sels₂ hov₂).1 := by
          rw [← hw]
          exact List.mem_singleton.mp hlast
        exact PassAction.writeDecorations.inj heq
  have hne : writesOf t ≠ [] := by
    have hmem : PassAction.writeDecorations (applyDecorationsPass doc₁ vis₁ sels₁ hov₁).1 ∈
        (t.filter (fun y => !y.1)).map (·.2) := by
      rw [h₁, passActions]
      exact List.mem_append_right _ (List.mem_singleton.mpr rfl)
    obtain ⟨x, hxf, hx2⟩ := List.mem_map.mp hmem
    have hxt : x ∈ t := (List.mem_filter.mp hxf).1
    have hmw : (applyDecorationsPass doc₁ vis₁ sels₁ hov₁).1 ∈ writesOf t :=
      mem_writesOf.mpr ⟨x, hxt, hx2⟩
    intro hnil
    rw [hnil] at hmw
    cases hmw
  have hfd : finalDecorations t = (writesOf t).foldl (fun _ o => some o) none :=
    finalDecorations_eq_writes_fold t none
  rcases foldl_some_mem (writesOf t) none with hnil | ⟨o, ho, heq⟩
  · exact absurd hnil hne
  · rw [hfd, heq]
    rcases hmemw o ho with h | h
    · left; rw [h]
    · right; rw [h]

/-- C5, witness: the atomic-replacement dichotomy applied to the
counterexample trace. -/
theorem C5_witness :
    finalDecorations raceTrace =
        some (applyDecorationsPass raceOldDoc raceVis [] refHoverSample).1 ∨
      finalDecorations raceTrace =
        some (applyDecorationsPass raceNewDoc raceVis [] nullHoverSample).1 :=
  C5_theorem raceTrace raceOldDoc raceVis [] refHoverSample raceNewDoc raceVis []
    nullHoverSample ⟨by decide, by decide⟩

end IvueHideValue
